import Mathlib

/-!
Verification of the ClipFlow AI core: marker detection, segment slicing and
edit-decision export (`backend/app/core/marker.py`, `slicer.py`, `exporter.py`
and the data model of `backend/app/models/schemas.py`).

Times are seconds; the Python floats are embedded as rationals (`ℚ`), so all
arithmetic is exact.  Python's `round` (banker's rounding, half to even) is
modelled by `roundHalfEven`, and `round(x, 3)` by `round3`.
-/

set_option linter.unusedVariables false

attribute [local semireducible] Rat.add Rat.sub Rat.mul Rat.inv Rat.ofScientific

namespace ClipFlow

/-- Python's `round(q)`: nearest integer, ties to the even neighbour. -/
def roundHalfEven (q : ℚ) : ℤ :=
  let f : ℤ := ⌊q⌋
  let r : ℚ := q - f
  if r < 1/2 then f
  else if 1/2 < r then f + 1
  else if f % 2 = 0 then f else f + 1

/-- Python's `round(q, 3)`: round to 3 decimal places (half to even). -/
def round3 (q : ℚ) : ℚ :=
  (roundHalfEven (q * 1000) : ℚ) / 1000

/-- The `MarkerType` enum of `schemas.py`. -/
inductive MarkerType where
  | NG
  | OK
  | START
  | END
deriving DecidableEq, Repr

/-- The `TranscriptWord` model of `schemas.py`: a word with timestamps. -/
structure TranscriptWord where
  word : String
  start : ℚ
  «end» : ℚ
  confidence : ℚ := 0
deriving DecidableEq, Repr

/-- The `TranscriptSegment` model of `schemas.py`: a sentence with its word list. -/
structure TranscriptSegment where
  text : String
  start : ℚ
  «end» : ℚ
  words : List TranscriptWord := []
deriving DecidableEq, Repr

/-- The `Marker` model of `schemas.py`: a detected speech marker. -/
structure Marker where
  type : MarkerType
  word : String
  start : ℚ
  «end» : ℚ
  confidence : ℚ := 0
deriving DecidableEq, Repr

/-- The `Segment` model of `schemas.py`.  The Python `id` field defaults to a fresh
`seg_<uuid>` string; the uuid draw is nondeterministic and no claim depends on
slicer-assigned id values, so the embedding uses a fixed placeholder default. -/
structure Segment where
  id : String := "seg_00000000"
  type : String := "keep"
  start : ℚ
  «end» : ℚ
  trigger_marker : Option Marker := none
  enabled : Bool := true
  manual_adjusted : Bool := false
deriving DecidableEq, Repr

/-! ## `slicer.py` -/

/-- The loop body of `_merge_overlapping` (`slicer.py` lines 166–176), after
the input has been sorted by start: `last` is the segment currently being
extended (Python mutates `merged[-1].end` in place; here the update is
functional). -/
def mergeLoop (last : Segment) : List Segment → List Segment
  | [] => [last]
  | seg :: rest =>
    if seg.start ≤ last.«end» + 5/100 then
      mergeLoop { last with «end» := max last.«end» seg.«end» } rest
    else
      last :: mergeLoop seg rest

/-- The sort key of `_merge_overlapping` and the stability-preserving order on
segments: Python's stable `sorted(..., key=lambda s: s.start)` is modelled by
the stable `List.insertionSort` under this relation. -/
def segLE (a b : Segment) : Prop := a.start ≤ b.start

instance : DecidableRel segLE := fun a b => inferInstanceAs (Decidable (a.start ≤ b.start))

/-- Function `_merge_overlapping` (`slicer.py` lines 159–176): sort by start, then merge
any segment whose start is within 50 ms of the running end of the previous
merged segment. -/
def mergeOverlapping (segments : List Segment) : List Segment :=
  match segments.insertionSort segLE with
  | [] => []
  | s :: rest => mergeLoop s rest

/-- The `for ok in ok_markers` loop of `slice_backtrack` (`slicer.py` lines
55–86).  `acc` is the `segments` list built so far (the `else` branch reads
`segments[-1].end`). -/
def backtrackLoop (ngMarkers : List Marker) (totalDuration preBuffer postBuffer : ℚ)
    (acc : List Segment) : List Marker → List Segment
  | [] => acc
  | ok :: rest =>
    let precedingNgs := ngMarkers.filter (fun ng => ng.«end» < ok.start)
    let segStart0 : ℚ :=
      match precedingNgs.getLast? with
      | some nearestNg => max 0 (nearestNg.«end» + postBuffer)
      | none =>
        match acc.getLast? with
        | some prev => prev.«end»
        | none => 0
    let segEnd0 : ℚ := min totalDuration (ok.start - preBuffer)
    let segStart : ℚ := max 0 (segStart0 - preBuffer)
    let segEnd : ℚ := min totalDuration (segEnd0 + postBuffer)
    let acc' :=
      if segStart + 1/10 < segEnd then
        acc ++ [{ start := round3 segStart, «end» := round3 segEnd,
                  type := "keep", trigger_marker := some ok }]
      else acc
    backtrackLoop ngMarkers totalDuration preBuffer postBuffer acc' rest

/-- Function `slice_backtrack` (`slicer.py` lines 14–92).  The `transcript` argument is
accepted and unused, exactly as in the source. -/
def slice_backtrack (markers : List Marker) (transcript : List TranscriptSegment)
    (total_duration : ℚ) (pre_buffer : ℚ := 1/2) (post_buffer : ℚ := 3/10) :
    List Segment :=
  let okMarkers := markers.filter (fun m => m.type = MarkerType.OK)
  let ngMarkers := markers.filter (fun m => m.type = MarkerType.NG)
  if okMarkers.isEmpty then
    if 0 < total_duration then
      [{ start := 0, «end» := total_duration, type := "keep" }]
    else []
  else
    mergeOverlapping
      (backtrackLoop ngMarkers total_duration pre_buffer post_buffer [] okMarkers)

/-- The `for start_m in start_markers` loop of `slice_interval` (`slicer.py`
lines 125–151).  Iterations are independent of the accumulated list. -/
def intervalLoop (startMarkers endMarkers : List Marker)
    (totalDuration preBuffer postBuffer : ℚ) : List Marker → List Segment
  | [] => []
  | sm :: rest =>
    let matchingEnds := endMarkers.filter (fun e => sm.«end» < e.start)
    let pair : ℚ × ℚ :=
      match matchingEnds with
      | em :: _ =>
        (max 0 (sm.«end» + postBuffer - preBuffer),
         min totalDuration (em.start - postBuffer + postBuffer))
      | [] =>
        let nextStarts := startMarkers.filter (fun s => sm.«end» < s.start)
        let segEnd : ℚ :=
          match nextStarts with
          | n :: _ => n.start
          | [] => totalDuration
        (max 0 (sm.«end» + postBuffer - preBuffer), segEnd)
    let emitted :=
      if pair.1 + 1/10 < pair.2 then
        [{ start := round3 pair.1, «end» := round3 pair.2,
           type := "keep", trigger_marker := some sm : Segment }]
      else []
    emitted ++ intervalLoop startMarkers endMarkers totalDuration preBuffer postBuffer rest

/-- Function `slice_interval` (`slicer.py` lines 95–156). -/
def slice_interval (markers : List Marker) (transcript : List TranscriptSegment)
    (total_duration : ℚ) (pre_buffer : ℚ := 1/2) (post_buffer : ℚ := 3/10) :
    List Segment :=
  let startMarkers := markers.filter (fun m => m.type = MarkerType.START)
  let endMarkers := markers.filter (fun m => m.type = MarkerType.END)
  if startMarkers.isEmpty then []
  else
    mergeOverlapping
      (intervalLoop startMarkers endMarkers total_duration pre_buffer post_buffer
        startMarkers)

/-! ### Grouping view of the merge pass (used to characterise `_merge_overlapping`)

`groupLoop` records which input segments each iteration of the Python loop
absorbs into the segment currently at `merged[-1]`: it returns the list of
(groupHead, absorbedSegments) pairs, where `runEnd` is the running value of
`merged[-1].end`. -/
def groupLoop (head : Segment) (runEnd : ℚ) (grp : List Segment) :
    List Segment → List (Segment × List Segment)
  | [] => [(head, grp)]
  | seg :: rest =>
    if seg.start ≤ runEnd + 5/100 then
      groupLoop head (max runEnd seg.«end») (grp ++ [seg]) rest
    else
      (head, grp) :: groupLoop seg seg.«end» [] rest

/-- The groups of the merge pass on an input list. -/
def mergeGroups (segments : List Segment) : List (Segment × List Segment) :=
  match segments.insertionSort segLE with
  | [] => []
  | s :: rest => groupLoop s s.«end» [] rest

/-- Collapse one group: the head segment with its `end` raised to the running
maximum of the ends of the whole group (head first, then absorbed in order). -/
def collapse (g : Segment × List Segment) : Segment :=
  { g.1 with «end» := g.2.foldl (fun a s => max a s.«end») g.1.«end» }

/-- Relation between consecutive outputs of the merge pass: starts ascend and
the later segment starts strictly beyond the earlier one's end plus the 50 ms
tolerance. -/
def mergedApart (a b : Segment) : Prop :=
  a.start ≤ b.start ∧ a.«end» + 5/100 < b.start

/-- Two segments are ordered and their closed time ranges are disjoint. -/
def nonOverlap (a b : Segment) : Prop :=
  a.start ≤ b.start ∧ a.«end» < b.start

instance : IsTrans Segment mergedApart :=
  ⟨fun _ _ _ h h' => ⟨le_trans h.1 h'.1, lt_of_lt_of_le h.2 h'.1⟩⟩

/-! ## `exporter.py` -/

/-- Zero-padded decimal rendering of an integer to a minimum width, as in the
Python format specifier `f"{n:0wd}"` (the sign is kept in front of the pad). -/
def padInt (w : Nat) (n : ℤ) : String :=
  if n < 0 then
    let s := toString n.natAbs
    "-" ++ String.mk (List.replicate (w - 1 - s.length) '0') ++ s
  else
    let s := toString n.natAbs
    String.mk (List.replicate (w - s.length) '0') ++ s

/-- Python's `int(q)`: truncation toward zero. -/
def pyInt (q : ℚ) : ℤ :=
  if 0 ≤ q then ⌊q⌋ else -⌊-q⌋

/-- Function `_seconds_to_srt_tc` (`exporter.py` lines 34–43).  Python's `seconds % 1`
(modulus with a positive divisor) is `seconds - ⌊seconds⌋`; `//` and `%` on the
nonneg `total_s` are `Int.ediv`/`Int.emod`.  -/
def secondsToSrtTc (seconds : ℚ) : String :=
  let ms : ℤ := roundHalfEven ((seconds - (⌊seconds⌋ : ℤ)) * 1000)
  let total_s : ℤ := pyInt seconds
  let ss := total_s.emod 60
  let mm := (total_s.ediv 60).emod 60
  let hh := total_s.ediv 3600
  padInt 2 hh ++ ":" ++ padInt 2 mm ++ ":" ++ padInt 2 ss ++ "," ++ padInt 3 ms

/-- ASCII lowercasing, for Python's `str.lower` / `re.IGNORECASE` on the
keyword texts involved here. -/
def strLower (s : String) : String := String.mk (s.toList.map Char.toLower)

/-- Python's `str.strip()`: drop whitespace from both ends. -/
def pyStrip (s : String) : String :=
  String.mk
    (((s.toList.dropWhile Char.isWhitespace).reverse.dropWhile
        Char.isWhitespace).reverse)

/-- Whether `cs` starts with `kw`, comparing characters case-insensitively. -/
def startsWithCI (kw : List Char) (cs : List Char) : Bool :=
  match kw, cs with
  | [], _ => true
  | _ :: _, [] => false
  | k :: ks, c :: rest => (k.toLower = c.toLower : Bool) && startsWithCI ks rest

/-- One pass of `re.sub(re.escape(kw), "", text, flags=re.IGNORECASE)`: remove
every (non-overlapping, left-to-right) case-insensitive occurrence of `kw`.
`fuel ≥ cs.length` steps always suffice; the caller guards `kw ≠ []`. -/
def removeAllCIFuel (kw : List Char) : Nat → List Char → List Char
  | 0, cs => cs
  | _ + 1, [] => []
  | fuel + 1, c :: rest =>
    if startsWithCI kw (c :: rest) then
      removeAllCIFuel kw fuel ((c :: rest).drop kw.length)
    else
      c :: removeAllCIFuel kw fuel rest

/-- Case-insensitive removal of all occurrences of `kw` (the empty pattern
matches nothing to delete, as with `re.sub(re.escape(""), ...)`). -/
def removeAllCI (kw : List Char) (cs : List Char) : List Char :=
  if kw.isEmpty then cs else removeAllCIFuel kw cs.length cs

/-- One step of the keyword-filter loop of `export_srt` (lines 219–225):
case-insensitive removal of `kw` followed by `strip()`. -/
def stripKeyword (t : String) (kw : String) : String :=
  pyStrip (String.mk (removeAllCI kw.toList t.toList))

/-- The effective text filter of `export_srt` (lines 213–226): with no filter
keywords the raw sentence text is used untouched (the `filter_keywords:` branch
is skipped and the first loop body never runs); otherwise each keyword is
removed case-insensitively from the original text, trimming after each. -/
def cleanText (kws : List String) (text : String) : String :=
  if kws.isEmpty then text else kws.foldl stripKeyword text

/-- One SRT entry string, `f"{counter}\n{tc} --> {tc}\n{text}\n"`. -/
def srtEntry (counter : Nat) (relStart relEnd : ℚ) (text : String) : String :=
  toString counter ++ "\n" ++ secondsToSrtTc relStart ++ " --> " ++
    secondsToSrtTc relEnd ++ "\n" ++ text ++ "\n"

/-- The inner `for ts in transcript` loop of `export_srt` (lines 204–240) for
one keep segment, threading the cue counter. -/
def srtSentenceLoop (kws : List String) (seg : Segment) (timeOffset : ℚ) :
    Nat → List TranscriptSegment → List String × Nat
  | counter, [] => ([], counter)
  | counter, ts :: rest =>
    if ts.«end» ≤ seg.start ∨ seg.«end» ≤ ts.start then
      srtSentenceLoop kws seg timeOffset counter rest
    else
      let subStart := max ts.start seg.start
      let subEnd := min ts.«end» seg.«end»
      let text := cleanText kws ts.text
      if text = "" then
        srtSentenceLoop kws seg timeOffset counter rest
      else
        let relStart := timeOffset + (subStart - seg.start)
        let relEnd := timeOffset + (subEnd - seg.start)
        let (es, counter') := srtSentenceLoop kws seg timeOffset (counter + 1) rest
        (srtEntry counter relStart relEnd text :: es, counter')

/-- The outer `for seg in enabled` loop of `export_srt` (lines 200–242),
accumulating the output-time offset. -/
def srtSegLoop (kws : List String) (transcript : List TranscriptSegment) :
    Nat → ℚ → List Segment → List String
  | _, _, [] => []
  | counter, timeOffset, seg :: rest =>
    let (entries, counter') := srtSentenceLoop kws seg timeOffset counter transcript
    entries ++
      srtSegLoop kws transcript counter' (timeOffset + (seg.«end» - seg.start)) rest

/-- Function `export_srt` (`exporter.py` lines 174–244). -/
def export_srt (segments : List Segment) (transcript : List TranscriptSegment)
    (filter_keywords : List String := []) : String :=
  let kws := filter_keywords.map strLower
  let enabled :=
    (segments.filter (fun s => s.enabled && s.type == "keep")).insertionSort segLE
  String.intercalate "\n" (srtSegLoop kws transcript 1 0 enabled)

/-- Sum of the durations of a segment list. -/
def durationsSum (l : List Segment) : ℚ := (l.map (fun s => s.«end» - s.start)).sum

/-- Cues of one keep segment, as the specification states them: every
transcript sentence overlapping the segment (`sentence.end > segment.start`
and `sentence.start < segment.end`) whose filtered text is nonempty yields one
cue, clipped to the segment boundaries and re-timed by `off`. -/
def segCuesSpec (kws : List String) (seg : Segment) (off : ℚ)
    (transcript : List TranscriptSegment) : List (ℚ × ℚ × String) :=
  transcript.filterMap (fun ts =>
    if ts.«end» ≤ seg.start ∨ seg.«end» ≤ ts.start then none
    else if cleanText kws ts.text = "" then none
    else
      some (off + (max ts.start seg.start - seg.start),
            off + (min ts.«end» seg.«end» - seg.start),
            cleanText kws ts.text))

/-- Cue list of `export_srt` as the specification states it: for the `i`-th
enabled keep segment (sorted by start), the output offset is the sum of the
durations of the previously processed enabled segments. -/
def srtCuesSpec (segments : List Segment) (transcript : List TranscriptSegment)
    (filter_keywords : List String) : List (ℚ × ℚ × String) :=
  let kws := filter_keywords.map strLower
  let enabled :=
    (segments.filter (fun s => s.enabled && s.type == "keep")).insertionSort segLE
  enabled.enum.flatMap (fun p =>
    segCuesSpec kws p.2 (durationsSum (enabled.take p.1)) transcript)

/-- Cue triples rendered as sequentially numbered SRT entries starting at
`counter`. -/
def renderCues (counter : Nat) : List (ℚ × ℚ × String) → List String
  | [] => []
  | c :: rest => srtEntry counter c.1 c.2.1 c.2.2 :: renderCues (counter + 1) rest

/-- Cues of a segment list threading the output-time offset, the bridge
between the loop of `export_srt` and the take-sum formulation of
`srtCuesSpec`. -/
def threadCues (kws : List String) (transcript : List TranscriptSegment) :
    ℚ → List Segment → List (ℚ × ℚ × String)
  | _, [] => []
  | off, seg :: rest =>
    segCuesSpec kws seg off transcript ++
      threadCues kws transcript (off + (seg.«end» - seg.start)) rest

/-- Fixture for the SRT counterexample: a default keep segment over `[0, 10]`. -/
def fixtureSeg : Segment := { start := 0, «end» := 10 }

/-- Fixture for the SRT counterexample: a sentence whose text is a single
space. -/
def fixtureBlankSentence : TranscriptSegment := { text := " ", start := 1, «end» := 2 }

/-- The candidate segment of `slice_interval` for one START marker, as the
(amended) specification states it: pair with the first END marker in list
order whose start exceeds `START.end` (the nearest following one when the END
markers are time-sorted); the kept range is
`[max 0 (START.end + postBuffer − preBuffer), min totalDuration END.start]`
(both ends rounded to 3 decimals); with no such END, the end is the first
following START's start, or `totalDuration` if none.

`intervalSpecEnd` is the end of that range. -/
def intervalSpecEnd (startMarkers endMarkers : List Marker) (totalDuration : ℚ)
    (sm : Marker) : ℚ :=
  match endMarkers.find? (fun e => decide (sm.«end» < e.start)) with
  | some em => min totalDuration em.start
  | none =>
    match startMarkers.find? (fun s => decide (sm.«end» < s.start)) with
    | some n => n.start
    | none => totalDuration

def intervalCandidateSpec (startMarkers endMarkers : List Marker)
    (totalDuration preBuffer postBuffer : ℚ) (sm : Marker) : Option Segment :=
  let segStart : ℚ := max 0 (sm.«end» + postBuffer - preBuffer)
  let segEnd : ℚ := intervalSpecEnd startMarkers endMarkers totalDuration sm
  if segStart + 1/10 < segEnd then
    some { start := round3 segStart, «end» := round3 segEnd,
           type := "keep", trigger_marker := some sm }
  else none

/-! ## `marker.py`

The fuzzy similarity of `_fuzzy_match` delegates to Python's
`difflib.SequenceMatcher(None, text, keyword).ratio()`, modelled below from
the `difflib` documentation and source for the no-junk case (autojunk only
affects second sequences of length ≥ 200, far beyond any keyword here):
`ratio = 2·M/T` where `M` is the total size of the matching blocks found by
recursively taking the longest matching block (earliest in `a`, then earliest
in `b`, among the maximal ones) and `T` the sum of the lengths. -/

/-- The `FUZZY_THRESHOLD` constant of `marker.py`. -/
def fuzzyThreshold : ℚ := 3/4

/-- Length of the longest common prefix of two character lists. -/
def commonRun : List Char → List Char → Nat
  | a :: as, b :: bs => if a = b then commonRun as bs + 1 else 0
  | _, _ => 0

/-- Size of the matching block starting at `(i, j)`, clipped to the window
`a[i:ahi]`, `b[j:bhi]`. -/
def blockSizeAt (a b : List Char) (ahi bhi i j : Nat) : Nat :=
  min (commonRun (a.drop i) (b.drop j)) (min (ahi - i) (bhi - j))

/-- Model of `SequenceMatcher.find_longest_match` on the window `a[alo:ahi]`,
`b[blo:bhi]` (no junk): the longest matching block, ties resolved to the
earliest start in `a`, then the earliest start in `b`. -/
def findLongestMatch (a b : List Char) (alo ahi blo bhi : Nat) : Nat × Nat × Nat :=
  ((List.range' alo (ahi - alo)).flatMap
      (fun i => (List.range' blo (bhi - blo)).map (fun j => (i, j)))).foldl
    (fun best p =>
      let k := blockSizeAt a b ahi bhi p.1 p.2
      if best.2.2 < k then (p.1, p.2, k) else best)
    (alo, blo, 0)

/-- Model of `SequenceMatcher.get_matching_blocks` (recursive splitting around the
longest match).  Each recursive call strictly shrinks the window, so `fuel ≥
(ahi − alo) + (bhi − blo) + 1` always suffices; `ratio` below supplies it. -/
def matchingBlocks (a b : List Char) :
    Nat → Nat → Nat → Nat → Nat → List (Nat × Nat × Nat)
  | 0, _, _, _, _ => []
  | fuel + 1, alo, ahi, blo, bhi =>
    let m := findLongestMatch a b alo ahi blo bhi
    if m.2.2 = 0 then []
    else
      matchingBlocks a b fuel alo m.1 blo m.2.1 ++
        m :: matchingBlocks a b fuel (m.1 + m.2.2) ahi (m.2.1 + m.2.2) bhi

/-- Model of `SequenceMatcher.ratio()`: `2·M/T`, and `1` when both sequences are
empty. -/
def smRatio (a b : List Char) : ℚ :=
  let total := a.length + b.length
  if total = 0 then 1
  else
    let m := ((matchingBlocks a b (a.length + b.length + 1) 0 a.length 0 b.length).map
      (fun t => t.2.2)).sum
    2 * (m : ℚ) / (total : ℚ)

/-- Whether `sub` occurs as a contiguous run inside `cs` (Python's `in` on strings). -/
def containsSeq (sub : List Char) : List Char → Bool
  | [] => sub.isEmpty
  | c :: rest => (sub.isPrefixOf (c :: rest) : Bool) || containsSeq sub rest

/-- Function `_fuzzy_match` (`marker.py` lines 24–43): strip and lowercase both sides;
equality or substring containment gives 1.0, otherwise the `SequenceMatcher`
ratio. -/
def fuzzyMatch (text keyword : String) : ℚ :=
  let t := strLower (pyStrip text)
  let k := strLower (pyStrip keyword)
  if t = k ∨ containsSeq k.toList t.toList then 1
  else smRatio t.toList k.toList

/-- The `words[start_idx + j]` reads (for `j` in `range(span)`, in order) of
the 1..5-word concatenation window: `none` models an `IndexError`. -/
def spanWords (words : List TranscriptWord) (i : Nat) :
    Nat → Option (List TranscriptWord)
  | 0 => some []
  | n + 1 =>
    match words[i]? with
    | none => none
    | some w => (spanWords words (i + 1) n).map (fun ws => w :: ws)

/-- The `for span in range(1, min(6, len(words) - start_idx + 1))` loop of
`_check_word_sequence` (lines 63–69), trying the listed spans in order. -/
def trySpans (words : List TranscriptWord) (i : Nat) (keyword : String) :
    List Nat → Option (Bool × Nat × ℚ)
  | [] => some (false, i, 0)
  | span :: rest =>
    match spanWords words i span with
    | none => none
    | some ws =>
      let combined := String.join (ws.map (fun w => w.word))
      let score := fuzzyMatch combined keyword
      if fuzzyThreshold ≤ score then some (true, i + span - 1, score)
      else trySpans words i keyword rest

/-- Function `_check_word_sequence` (`marker.py` lines 46–71).  `none` models an
`IndexError`; Python's `range(1, min(6, len(words) - start_idx + 1))` is
`List.range' 1 (min 6 (len - start_idx + 1) - 1)` (truncated subtraction
matches Python's empty range when `start_idx ≥ len`). -/
def checkWordSequence (words : List TranscriptWord) (start_idx : Nat)
    (keyword : String) : Option (Bool × Nat × ℚ) :=
  if keyword.length ≤ 3 then
    match words[start_idx]? with
    | none => none
    | some w =>
      let score := fuzzyMatch w.word keyword
      some (decide (fuzzyThreshold ≤ score), start_idx, score)
  else
    trySpans words start_idx keyword
      (List.range' 1 (min 6 (words.length - start_idx + 1) - 1))

/-- The `for keyword, mtype in keyword_map` loop of the word pass (lines
137–164): the first keyword whose word sequence matches.  The outer `none`
models an `IndexError` inside `_check_word_sequence`; `some none` means no
keyword matched at this position. -/
def findKeywordMatch (words : List TranscriptWord) (i : Nat) :
    List (String × MarkerType) → Option (Option (MarkerType × Nat × ℚ))
  | [] => some none
  | (kw, mt) :: rest =>
    match checkWordSequence words i kw with
    | none => none
    | some (isMatch, endIdx, score) =>
      if isMatch then some (some (mt, endIdx, score))
      else findKeywordMatch words i rest

/-- The `while i < len(seg.words)` loop of `detect_markers` (lines 132–167).
`fuel` bounds the number of iterations (the index always advances, so
`fuel = words.length` suffices, which the caller passes); running out of fuel
with the loop still unfinished yields `none`. -/
def wordPassLoop (kmap : List (String × MarkerType)) (words : List TranscriptWord) :
    Nat → Nat → List Marker → Option (List Marker)
  | 0, i, markers => if words.length ≤ i then some markers else none
  | fuel + 1, i, markers =>
    if words.length ≤ i then some markers
    else
      match words[i]? with
      | none => none
      | some word =>
        match findKeywordMatch words i kmap with
        | none => none
        | some none => wordPassLoop kmap words fuel (i + 1) markers
        | some (some (mt, endIdx, score)) =>
          match words[endIdx]?, spanWords words i (endIdx + 1 - i) with
          | some endWord, some spanWs =>
            let alreadyFound := markers.any (fun m =>
              decide (|m.start - word.start| < 1/10) &&
                decide (|m.«end» - endWord.«end»| < 1/10))
            let markers' :=
              if alreadyFound then markers
              else
                markers ++
                  [{ type := mt, word := String.join (spanWs.map (fun w => w.word)),
                     start := word.start, «end» := endWord.«end»,
                     confidence := round3 score }]
            wordPassLoop kmap words fuel (endIdx + 1) markers'
          | _, _ => none

/-- The `for keyword, mtype in keyword_map` loop of the sentence pass (lines
113–125): the first keyword whose similarity with the whole sentence text
reaches the threshold yields one marker. -/
def sentenceScan (segText : String) (s e : ℚ) :
    List (String × MarkerType) → Option Marker
  | [] => none
  | (kw, mt) :: rest =>
    let score := fuzzyMatch segText kw
    if fuzzyThreshold ≤ score then
      some { type := mt, word := segText, start := s, «end» := e,
             confidence := round3 score }
    else sentenceScan segText s e rest

/-- The sentence pass of `detect_markers` (lines 111–125), accumulating the
markers list. -/
def sentencePassLoop (kmap : List (String × MarkerType)) :
    List Marker → List TranscriptSegment → List Marker
  | markers, [] => markers
  | markers, seg :: rest =>
    match sentenceScan (pyStrip seg.text) seg.start seg.«end» kmap with
    | some m => sentencePassLoop kmap (markers ++ [m]) rest
    | none => sentencePassLoop kmap markers rest

/-- The sentence pass of `detect_markers`, starting from no markers. -/
def sentencePass (kmap : List (String × MarkerType))
    (transcript : List TranscriptSegment) : List Marker :=
  sentencePassLoop kmap [] transcript

/-- The word pass of `detect_markers` (lines 128–167), over every sentence. -/
def wordPassAll (kmap : List (String × MarkerType)) :
    List Marker → List TranscriptSegment → Option (List Marker)
  | markers, [] => some markers
  | markers, seg :: rest =>
    if seg.words.isEmpty then wordPassAll kmap markers rest
    else
      match wordPassLoop kmap seg.words seg.words.length 0 markers with
      | none => none
      | some markers' => wordPassAll kmap markers' rest

/-- Sort order of the final `markers.sort(key=lambda m: m.start)`. -/
def markerLE (a b : Marker) : Prop := a.start ≤ b.start

instance : DecidableRel markerLE :=
  fun a b => inferInstanceAs (Decidable (a.start ≤ b.start))

instance : IsTotal Marker markerLE := ⟨fun a b => le_total a.start b.start⟩

instance : IsTrans Marker markerLE := ⟨fun _ _ _ h h' => le_trans h h'⟩

/-- The `(keyword, type)` map of `detect_markers` (lines 100–108), in the
fixed priority order NG, OK, START, END. -/
def keywordMap (ng_keywords ok_keywords start_keywords end_keywords : List String) :
    List (String × MarkerType) :=
  ng_keywords.map (fun kw => (kw, MarkerType.NG)) ++
    ok_keywords.map (fun kw => (kw, MarkerType.OK)) ++
    start_keywords.map (fun kw => (kw, MarkerType.START)) ++
    end_keywords.map (fun kw => (kw, MarkerType.END))

/-- Function `detect_markers` (`marker.py` lines 74–179).  `none` models an uncaught
exception (an `IndexError` or a non-terminating scan); the safety claim proves
it never occurs. -/
def detect_markers (transcript : List TranscriptSegment)
    (ng_keywords ok_keywords : List String)
    (start_keywords : List String := []) (end_keywords : List String := []) :
    Option (List Marker) :=
  let kmap := keywordMap ng_keywords ok_keywords start_keywords end_keywords
  match wordPassAll kmap (sentencePass kmap transcript) transcript with
  | none => none
  | some ms => some (ms.insertionSort markerLE)

instance : IsTotal Segment segLE := ⟨fun a b => le_total a.start b.start⟩

instance : IsTrans Segment segLE := ⟨fun _ _ _ h h' => le_trans h h'⟩

/-- Fixture markers and segments for concrete instantiations. -/
def fixtureMarkerOK : Marker := { type := .OK, word := "OK", start := 10, «end» := 10.5 }

def fixtureSegA : Segment := { id := "a", start := 0, «end» := 10 }

def fixtureSegB : Segment :=
  { id := "b", start := 5, «end» := 8, trigger_marker := some fixtureMarkerOK }

def fixtureStart : Marker := { type := .START, word := "s", start := 0, «end» := 0 }

def fixtureEnd : Marker := { type := .END, word := "e", start := 5, «end» := 5.2 }

/-! ## Theory of the merge pass -/

theorem mergeLoop_chain (last : Segment) (l : List Segment)
    (hs : (last :: l).Pairwise segLE) :
    (mergeLoop last l).Chain' mergedApart ∧
      (∀ s ∈ mergeLoop last l, last.start ≤ s.start) ∧ mergeLoop last l ≠ [] := by
  induction l generalizing last with
  | nil =>
    refine ⟨List.chain'_singleton _, ?_, by simp [mergeLoop]⟩
    intro s hs'
    simp only [mergeLoop, List.mem_singleton] at hs'
    exact hs' ▸ le_refl _
  | cons s t ih =>
    rw [List.pairwise_cons] at hs
    by_cases hc : s.start ≤ last.«end» + 5/100
    · rw [mergeLoop, if_pos hc]
      have hs' : ({ last with «end» := max last.«end» s.«end» } :: t).Pairwise segLE := by
        rw [List.pairwise_cons]
        exact ⟨fun a ha => hs.1 a (List.mem_cons_of_mem _ ha),
          (List.pairwise_cons.mp hs.2).2⟩
      obtain ⟨h1, h2, h3⟩ := ih _ hs'
      exact ⟨h1, fun x hx => h2 x hx, h3⟩
    · rw [mergeLoop, if_neg hc]
      obtain ⟨h1, h2, h3⟩ := ih s hs.2
      have hlast_s : last.start ≤ s.start := hs.1 s (List.mem_cons_self _ _)
      have hgap : last.«end» + 5/100 < s.start := lt_of_not_ge hc
      refine ⟨?_, ?_, List.cons_ne_nil _ _⟩
      · rw [List.chain'_cons']
        refine ⟨fun y hy => ?_, h1⟩
        have hy' : s.start ≤ y.start := h2 y (List.mem_of_mem_head? hy)
        exact ⟨le_trans hlast_s hy', lt_of_lt_of_le hgap hy'⟩
      · intro x hx
        rcases List.mem_cons.mp hx with rfl | hx'
        · exact le_refl _
        · exact le_trans hlast_s (h2 x hx')

theorem mergeOverlapping_chain (L : List Segment) :
    (mergeOverlapping L).Chain' mergedApart := by
  unfold mergeOverlapping
  rcases hsort : L.insertionSort segLE with _ | ⟨s, rest⟩
  · exact List.chain'_nil
  · have hp : (s :: rest).Pairwise segLE := hsort ▸ L.sorted_insertionSort segLE
    exact (mergeLoop_chain s rest hp).1

theorem mergeOverlapping_pairwise (L : List Segment) :
    (mergeOverlapping L).Pairwise mergedApart :=
  List.chain'_iff_pairwise.mp (mergeOverlapping_chain L)

theorem mergeLoop_of_chain (x : Segment) (xs : List Segment)
    (h : (x :: xs).Chain' mergedApart) : mergeLoop x xs = x :: xs := by
  induction xs generalizing x with
  | nil => rfl
  | cons s t ih =>
    rw [List.chain'_cons] at h
    have : ¬s.start ≤ x.«end» + 5/100 := not_le_of_lt h.1.2
    rw [mergeLoop, if_neg this, ih s h.2]

theorem mergeOverlapping_eq_self (M : List Segment) (h : M.Chain' mergedApart) :
    mergeOverlapping M = M := by
  have hp : M.Pairwise segLE := (List.chain'_iff_pairwise.mp h).imp fun hab => hab.1
  unfold mergeOverlapping
  rw [List.Sorted.insertionSort_eq hp]
  cases M with
  | nil => rfl
  | cons x xs => exact mergeLoop_of_chain x xs h

theorem mergeLoop_mem (p : Segment → Prop)
    (hp : ∀ (s : Segment) (e : ℚ), p s → p { s with «end» := e })
    (last : Segment) (l : List Segment) (h1 : p last) (h2 : ∀ s ∈ l, p s) :
    ∀ s ∈ mergeLoop last l, p s := by
  induction l generalizing last with
  | nil =>
    intro s hs
    simp only [mergeLoop, List.mem_singleton] at hs
    exact hs ▸ h1
  | cons s t ih =>
    by_cases hc : s.start ≤ last.«end» + 5/100
    · rw [mergeLoop, if_pos hc]
      exact ih _ (hp last _ h1) (fun x hx => h2 x (List.mem_cons_of_mem _ hx))
    · rw [mergeLoop, if_neg hc]
      intro x hx
      rcases List.mem_cons.mp hx with rfl | hx'
      · exact h1
      · exact ih s (h2 s (List.mem_cons_self _ _))
          (fun y hy => h2 y (List.mem_cons_of_mem _ hy)) x hx'

theorem mergeOverlapping_mem (p : Segment → Prop)
    (hp : ∀ (s : Segment) (e : ℚ), p s → p { s with «end» := e })
    (L : List Segment) (h : ∀ s ∈ L, p s) :
    ∀ s ∈ mergeOverlapping L, p s := by
  have hsorted : ∀ s ∈ L.insertionSort segLE, p s := by
    intro s hs
    exact h s ((L.perm_insertionSort segLE).subset hs)
  unfold mergeOverlapping
  rcases hsort : L.insertionSort segLE with _ | ⟨x, xs⟩
  · intro s hs; simp at hs
  · exact mergeLoop_mem p hp x xs (hsorted x (hsort ▸ List.mem_cons_self _ _))
      (fun s hs => hsorted s (hsort ▸ List.mem_cons_of_mem _ hs))

theorem backtrackLoop_mem (p : Segment → Prop)
    (hnew : ∀ (ok : Marker) (a b : ℚ),
      p { start := a, «end» := b, type := "keep", trigger_marker := some ok })
    (ngs : List Marker) (td pre post : ℚ) :
    ∀ (oks : List Marker) (acc : List Segment), (∀ s ∈ acc, p s) →
      ∀ s ∈ backtrackLoop ngs td pre post acc oks, p s := by
  intro oks
  induction oks with
  | nil => intro acc hacc s hs; exact hacc s hs
  | cons ok rest ih =>
    intro acc hacc s hs
    rw [backtrackLoop] at hs
    refine ih _ ?_ s hs
    intro x hx
    split at hx
    · rcases List.mem_append.mp hx with hx' | hx'
      · exact hacc x hx'
      · simp only [List.mem_singleton] at hx'
        exact hx' ▸ hnew _ _ _
    · exact hacc x hx

theorem intervalLoop_mem (p : Segment → Prop)
    (hnew : ∀ (sm : Marker) (a b : ℚ),
      p { start := a, «end» := b, type := "keep", trigger_marker := some sm })
    (sms ems : List Marker) (td pre post : ℚ) :
    ∀ (l : List Marker), ∀ s ∈ intervalLoop sms ems td pre post l, p s := by
  intro l
  induction l with
  | nil => intro s hs; simp [intervalLoop] at hs
  | cons sm rest ih =>
    intro s hs
    rw [intervalLoop] at hs
    rcases List.mem_append.mp hs with hx | hx
    · split at hx
      · simp only [List.mem_singleton] at hx
        exact hx ▸ hnew _ _ _
      · simp at hx
    · exact ih s hx

/-- C1: the overlap-merge pass always returns a list that is sorted ascending
by start and pairwise non-overlapping (each segment starts strictly after the
previous one ends), and both slicing algorithms inherit this invariant. -/
theorem merged_nonoverlapping_sorted_C1 :
    (∀ L : List Segment, (mergeOverlapping L).Pairwise nonOverlap) ∧
    (∀ (markers : List Marker) (tr : List TranscriptSegment) (td pre post : ℚ),
      (slice_backtrack markers tr td pre post).Pairwise nonOverlap) ∧
    (∀ (markers : List Marker) (tr : List TranscriptSegment) (td pre post : ℚ),
      (slice_interval markers tr td pre post).Pairwise nonOverlap) := by
  have hm : ∀ L : List Segment, (mergeOverlapping L).Pairwise nonOverlap := by
    intro L
    refine (mergeOverlapping_pairwise L).imp ?_
    intro a b hab
    exact ⟨hab.1, lt_of_le_of_lt (le_add_of_nonneg_right (by norm_num)) hab.2⟩
  refine ⟨hm, ?_, ?_⟩
  · intro markers tr td pre post
    simp only [slice_backtrack]
    split
    · split
      · simp [List.pairwise_singleton]
      · exact List.Pairwise.nil
    · exact hm _
  · intro markers tr td pre post
    simp only [slice_interval]
    split
    · exact List.Pairwise.nil
    · exact hm _

/-- C5: the overlap-merge pass is idempotent. -/
theorem merge_idempotent_C5 :
    ∀ L : List Segment, mergeOverlapping (mergeOverlapping L) = mergeOverlapping L :=
  fun L => mergeOverlapping_eq_self _ (mergeOverlapping_chain L)

/-- C2: on the literal scenario — NG marker `[2.0, 2.5]`, OK marker
`[10.0, 10.5]`, totalDuration 20, preBuffer 0.5, postBuffer 0.3 — the
backtrack slicer returns exactly one segment `[2.3, 9.8]`. -/
theorem backtrack_literal_C2 :
    (slice_backtrack
      [{ type := .NG, word := "NG", start := 2, «end» := 2.5 },
       { type := .OK, word := "OK", start := 10, «end» := 10.5 }]
      [] 20 0.5 0.3).map (fun s => (s.start, s.«end»)) = [(2.3, 9.8)] := by
  decide

/-- C3 (counterexample): with zero OK markers and `totalDuration = 0` the
backtrack slicer returns no segment at all, not one spanning
`[0, totalDuration]` — the claim fails for non-positive total durations. -/
theorem backtrack_fallback_C3_counterexample :
    (slice_backtrack [] [] 0 0.5 0.3).length ≠ 1 := by decide

/-- C3 (amended): for every marker list with zero OK markers and every
`totalDuration > 0`, the backtrack slicer returns exactly one keep-segment
spanning `[0, totalDuration]`; in particular `[0, 60]` for totalDuration 60. -/
theorem backtrack_fallback_C3 (markers : List Marker) (tr : List TranscriptSegment)
    (td pre post : ℚ) (hok : ∀ m ∈ markers, m.type ≠ MarkerType.OK) (htd : 0 < td) :
    slice_backtrack markers tr td pre post =
      [{ start := 0, «end» := td, type := "keep" }] := by
  have hfilter : markers.filter (fun m => m.type = MarkerType.OK) = [] := by
    rw [List.filter_eq_nil_iff]
    intro m hm
    simpa using hok m hm
  simp only [slice_backtrack, hfilter, List.isEmpty_nil, if_pos htd, if_true]

theorem backtrack_fallback_C3_witness :
    slice_backtrack [] [] 60 0.5 0.3 = [{ start := 0, «end» := 60, type := "keep" }] :=
  backtrack_fallback_C3 [] [] 60 0.5 0.3 (by simp) (by decide)

/-- C9: every segment produced by either slicer has `type = "keep"`,
`enabled = true`, `manual_adjusted = false`, so the exporters' filter to
enabled keep segments retains all of them. -/
theorem sliced_fields_C9 (markers : List Marker) (tr : List TranscriptSegment)
    (td pre post : ℚ) :
    (∀ s ∈ slice_backtrack markers tr td pre post,
        s.type = "keep" ∧ s.enabled = true ∧ s.manual_adjusted = false) ∧
    (∀ s ∈ slice_interval markers tr td pre post,
        s.type = "keep" ∧ s.enabled = true ∧ s.manual_adjusted = false) ∧
    (slice_backtrack markers tr td pre post).filter
        (fun s => s.enabled && s.type == "keep") =
      slice_backtrack markers tr td pre post ∧
    (slice_interval markers tr td pre post).filter
        (fun s => s.enabled && s.type == "keep") =
      slice_interval markers tr td pre post := by
  set p : Segment → Prop :=
    fun s => s.type = "keep" ∧ s.enabled = true ∧ s.manual_adjusted = false with hp
  have hupd : ∀ (s : Segment) (e : ℚ), p s → p { s with «end» := e } := by
    intro s e h; exact h
  have hb : ∀ s ∈ slice_backtrack markers tr td pre post, p s := by
    simp only [slice_backtrack]
    split
    · split
      · intro s hs
        simp only [List.mem_singleton] at hs
        subst hs; exact ⟨rfl, rfl, rfl⟩
      · intro s hs; simp at hs
    · refine mergeOverlapping_mem p hupd _ ?_
      exact backtrackLoop_mem p (fun ok a b => ⟨rfl, rfl, rfl⟩) _ _ _ _ _ []
        (by intro s hs; simp at hs)
  have hi : ∀ s ∈ slice_interval markers tr td pre post, p s := by
    simp only [slice_interval]
    split
    · intro s hs; simp at hs
    · refine mergeOverlapping_mem p hupd _ ?_
      exact intervalLoop_mem p (fun sm a b => ⟨rfl, rfl, rfl⟩) _ _ _ _ _ _
  refine ⟨hb, hi, ?_, ?_⟩
  · rw [List.filter_eq_self]
    intro a ha
    obtain ⟨h1, h2, h3⟩ := hb a ha
    simp [h1, h2]
  · rw [List.filter_eq_self]
    intro a ha
    obtain ⟨h1, h2, h3⟩ := hi a ha
    simp [h1, h2]

theorem sliced_fields_C9_witness :
    (slice_backtrack [] [] 60 0.5 0.3).filter
        (fun s => s.enabled && s.type == "keep") =
      slice_backtrack [] [] 60 0.5 0.3 :=
  (sliced_fields_C9 [] [] 60 0.5 0.3).2.2.1

/-! ## Grouping characterisation of the merge pass (for the frame-effect claim) -/

theorem groupLoop_join (l : List Segment) :
    ∀ (head : Segment) (runEnd : ℚ) (grp : List Segment),
      (groupLoop head runEnd grp l).flatMap (fun g => g.1 :: g.2) =
        (head :: grp) ++ l := by
  induction l with
  | nil => intro head runEnd grp; simp [groupLoop]
  | cons seg rest ih =>
    intro head runEnd grp
    rw [groupLoop]
    split
    · rw [ih]
      simp
    · simp only [List.flatMap_cons, ih]
      simp

theorem mergeLoop_eq_groups (l : List Segment) :
    ∀ (head : Segment) (runEnd : ℚ) (grp : List Segment),
      runEnd = grp.foldl (fun a s => max a s.«end») head.«end» →
      mergeLoop { head with «end» := runEnd } l =
        (groupLoop head runEnd grp l).map collapse := by
  induction l with
  | nil =>
    intro head runEnd grp hinv
    simp only [mergeLoop, groupLoop, List.map_cons, List.map_nil, collapse]
    rw [hinv]
  | cons seg rest ih =>
    intro head runEnd grp hinv
    rw [mergeLoop, groupLoop]
    by_cases hc : seg.start ≤ runEnd + 5/100
    · rw [if_pos hc, if_pos hc]
      have : ({ head with «end» := runEnd } : Segment).«end» = runEnd := rfl
      have h2 : max runEnd seg.«end» =
          (grp ++ [seg]).foldl (fun a s => max a s.«end») head.«end» := by
        rw [List.foldl_append, ← hinv]
        rfl
      exact ih head (max runEnd seg.«end») (grp ++ [seg]) h2
    · rw [if_neg hc, if_neg hc]
      have hcol : collapse (head, grp) = { head with «end» := runEnd } := by
        simp only [collapse]
        rw [hinv]
      rw [List.map_cons, hcol]
      have := ih seg seg.«end» [] rfl
      simp only [List.foldl_nil] at this
      rw [← this]

theorem mergeGroups_join (L : List Segment) :
    (mergeGroups L).flatMap (fun g => g.1 :: g.2) = L.insertionSort segLE := by
  unfold mergeGroups
  rcases L.insertionSort segLE with _ | ⟨s, rest⟩
  · rfl
  · rw [groupLoop_join]
    rfl

theorem mergeOverlapping_eq_groups (L : List Segment) :
    mergeOverlapping L = (mergeGroups L).map collapse := by
  unfold mergeOverlapping mergeGroups
  rcases L.insertionSort segLE with _ | ⟨s, rest⟩
  · rfl
  · exact mergeLoop_eq_groups rest s s.«end» [] rfl

theorem foldl_max_init_le (l : List Segment) :
    ∀ init : ℚ, init ≤ l.foldl (fun a s => max a s.«end») init := by
  induction l with
  | nil => intro init; exact le_refl _
  | cons s t ih =>
    intro init
    exact le_trans (le_max_left _ _) (ih (max init s.«end»))

theorem foldl_max_mem_le (l : List Segment) :
    ∀ init : ℚ, ∀ s ∈ l, s.«end» ≤ l.foldl (fun a s => max a s.«end») init := by
  induction l with
  | nil => intro _ s hs; simp at hs
  | cons x t ih =>
    intro init s hs
    rcases List.mem_cons.mp hs with rfl | hs'
    · exact le_trans (le_max_right _ _) (foldl_max_init_le t _)
    · exact ih _ s hs'

theorem groups_absorbed_fresh {α : Type} [DecidableEq α] (f : Segment → α) :
    ∀ gs : List (Segment × List Segment),
      ((gs.flatMap (fun g => g.1 :: g.2)).map f).Nodup →
      ∀ g ∈ gs, ∀ s ∈ g.2, f s ∉ gs.map (fun g' => f g'.1) := by
  intro gs
  induction gs with
  | nil => simp
  | cons g0 rest ih =>
    intro hnd g hg s hsg
    simp only [List.flatMap_cons, List.map_append, List.map_cons, List.cons_append,
      List.nodup_cons, List.nodup_append, List.mem_append] at hnd
    obtain ⟨hhead, hnd2, hndrest, hdisj⟩ := hnd
    have hmemrest : ∀ g' ∈ rest, ∀ x ∈ g'.1 :: g'.2,
        f x ∈ (rest.flatMap (fun g => g.1 :: g.2)).map f := by
      intro g' hg' x hx
      exact List.mem_map_of_mem f (List.mem_flatMap.mpr ⟨g', hg', hx⟩)
    simp only [List.map_cons, List.mem_cons]
    rcases List.mem_cons.mp hg with rfl | hgrest
    · have hsin : f s ∈ g.2.map f := List.mem_map_of_mem f hsg
      rw [not_or]
      constructor
      · intro heq
        exact hhead (Or.inl (heq ▸ hsin))
      · intro hin
        obtain ⟨g', hg', heq⟩ := List.mem_map.mp hin
        have : f g'.1 ∈ (rest.flatMap (fun g => g.1 :: g.2)).map f :=
          hmemrest g' hg' g'.1 (List.mem_cons_self _ _)
        exact hdisj hsin (heq ▸ this)
    · have hsin : f s ∈ (rest.flatMap (fun g => g.1 :: g.2)).map f :=
        hmemrest g hgrest s (List.mem_cons_of_mem _ hsg)
      rw [not_or]
      constructor
      · intro heq
        exact hhead (Or.inr (heq ▸ hsin))
      · exact fun hin => (ih hndrest g hgrest s hsg) hin

/-- C10: the merge pass partitions the (start-sorted) input into consecutive
groups; each output segment is its group's earliest-starting segment with
`id`, `start`, `type`, `trigger_marker`, `enabled` and `manual_adjusted`
unchanged and only `end` possibly raised, to the maximum end over the group;
when the input ids (resp. trigger markers) are pairwise distinct, the id
(resp. trigger marker) of an absorbed non-head segment never appears in the
output. -/
theorem merge_frame_effect_C10 (L : List Segment)
    (hid : (L.map Segment.id).Nodup)
    (htm : (L.map Segment.trigger_marker).Nodup) :
    ((mergeGroups L).flatMap (fun g => g.1 :: g.2) = L.insertionSort segLE) ∧
    (mergeOverlapping L = (mergeGroups L).map collapse) ∧
    (∀ g ∈ mergeGroups L,
        (collapse g).id = g.1.id ∧ (collapse g).start = g.1.start ∧
        (collapse g).type = g.1.type ∧
        (collapse g).trigger_marker = g.1.trigger_marker ∧
        (collapse g).enabled = g.1.enabled ∧
        (collapse g).manual_adjusted = g.1.manual_adjusted ∧
        (collapse g).«end» = g.2.foldl (fun a s => max a s.«end») g.1.«end» ∧
        g.1.«end» ≤ (collapse g).«end» ∧
        (∀ s ∈ g.2, g.1.start ≤ s.start ∧ s.«end» ≤ (collapse g).«end»)) ∧
    (∀ g ∈ mergeGroups L, ∀ s ∈ g.2,
        s.id ∉ (mergeOverlapping L).map Segment.id ∧
        s.trigger_marker ∉ (mergeOverlapping L).map Segment.trigger_marker) := by
  have hjoin := mergeGroups_join L
  have heq := mergeOverlapping_eq_groups L
  have hsorted : (L.insertionSort segLE).Pairwise segLE := L.sorted_insertionSort segLE
  have hgroupwise : ∀ g ∈ mergeGroups L, ∀ s ∈ g.2, g.1.start ≤ s.start := by
    have hpw : ((mergeGroups L).flatMap (fun g => g.1 :: g.2)).Pairwise segLE :=
      hjoin ▸ hsorted
    intro g hg s hs
    rw [← List.map_id (mergeGroups L), List.flatMap_map] at hpw
    have := (List.pairwise_flatMap.mp hpw).1 g hg
    simp only [id] at this
    exact (List.pairwise_cons.mp this).1 s hs
  refine ⟨hjoin, heq, ?_, ?_⟩
  · intro g hg
    refine ⟨rfl, rfl, rfl, rfl, rfl, rfl, rfl, foldl_max_init_le _ _, ?_⟩
    intro s hs
    exact ⟨hgroupwise g hg s hs, foldl_max_mem_le _ _ s hs⟩
  · intro g hg s hs
    have hperm : List.Perm (L.insertionSort segLE) L := L.perm_insertionSort segLE
    have hid' : ((L.insertionSort segLE).map Segment.id).Nodup :=
      ((hperm.map Segment.id).nodup_iff).mpr hid
    have htm' : ((L.insertionSort segLE).map Segment.trigger_marker).Nodup :=
      ((hperm.map Segment.trigger_marker).nodup_iff).mpr htm
    have hmapid : (mergeOverlapping L).map Segment.id =
        (mergeGroups L).map (fun g' => (collapse g').id) := by
      rw [heq, List.map_map]; rfl
    have hmaptm : (mergeOverlapping L).map Segment.trigger_marker =
        (mergeGroups L).map (fun g' => (collapse g').trigger_marker) := by
      rw [heq, List.map_map]; rfl
    constructor
    · rw [hmapid]
      exact groups_absorbed_fresh Segment.id (mergeGroups L) (hjoin ▸ hid') g hg s hs
    · rw [hmaptm]
      exact groups_absorbed_fresh Segment.trigger_marker (mergeGroups L)
        (hjoin ▸ htm') g hg s hs

theorem merge_frame_effect_C10_witness :
    fixtureSegB.id ∉ (mergeOverlapping [fixtureSegA, fixtureSegB]).map Segment.id ∧
      fixtureSegB.trigger_marker ∉
        (mergeOverlapping [fixtureSegA, fixtureSegB]).map Segment.trigger_marker :=
  (merge_frame_effect_C10 [fixtureSegA, fixtureSegB] (by decide) (by decide)).2.2.2
    (fixtureSegA, [fixtureSegB]) (by decide) fixtureSegB (by decide)

/-! ## The interval slicer's per-START candidates -/

theorem find?_eq_head_filter {α : Type} (p : α → Bool) (l : List α) :
    l.find? p = (l.filter p).head? := by
  induction l with
  | nil => rfl
  | cons x t ih =>
    by_cases hx : p x
    · rw [List.find?_cons_of_pos _ hx, List.filter_cons_of_pos hx, List.head?_cons]
    · rw [List.find?_cons_of_neg _ hx, List.filter_cons_of_neg hx, ih]

theorem intervalLoop_eq_filterMap (sms ems : List Marker) (td pre post : ℚ) :
    ∀ l : List Marker,
      intervalLoop sms ems td pre post l =
        l.filterMap (intervalCandidateSpec sms ems td pre post) := by
  intro l
  induction l with
  | nil => rfl
  | cons sm rest ih =>
    simp only [intervalLoop, List.filterMap_cons, ih]
    unfold intervalCandidateSpec intervalSpecEnd
    rw [find?_eq_head_filter, find?_eq_head_filter]
    rcases hfe : ems.filter (fun e => sm.«end» < e.start) with _ | ⟨em, tl⟩
    · rcases hfs : sms.filter (fun s => sm.«end» < s.start) with _ | ⟨n, tl'⟩
      · rw [hfe, hfs]
        simp only [List.head?_nil]
        by_cases hc : max 0 (sm.«end» + post - pre) + 1/10 < td
        · rw [if_pos hc, if_pos hc]
          rfl
        · rw [if_neg hc, if_neg hc]
          rfl
      · rw [hfe, hfs]
        simp only [List.head?_nil, List.head?_cons]
        by_cases hc : max 0 (sm.«end» + post - pre) + 1/10 < n.start
        · rw [if_pos hc, if_pos hc]
          rfl
        · rw [if_neg hc, if_neg hc]
          rfl
    · rw [hfe]
      simp only [List.head?_nil, List.head?_cons, sub_add_cancel]
      by_cases hc : max 0 (sm.«end» + post - pre) + 1/10 < min td em.start
      · rw [if_pos hc, if_pos hc]
        rfl
      · rw [if_neg hc, if_neg hc]
        rfl

/-- C4 (counterexample): a START marker ending at time 0 with preBuffer 0.5
and postBuffer 0.3 produces a candidate starting at 0 (the `max(0.0, ·)`
clamp), not at `START.end + postBuffer − preBuffer = −0.2` as the claim's
formula states. -/
theorem interval_candidates_C4_counterexample :
    ((slice_interval [fixtureStart, fixtureEnd] [] 10 0.5 0.3).map
        (fun s => (s.start, s.«end»)) = [(0, 5)]) ∧
      (0 : ℚ) ≠ fixtureStart.«end» + 0.3 - 0.5 := by decide

/-- C4 (amended): the interval slicer is the merge pass applied to the list of
per-START candidates, where the candidate of each START marker pairs it with
the first END marker in list order whose start exceeds `START.end` (the
nearest following one when the END markers are time-sorted) and spans
`[max 0 (START.end + postBuffer − preBuffer), min totalDuration END.start]`
(rounded to 3 decimals, kept only when longer than 0.1 s); with no such END
the end is the first following START's start, or totalDuration if none. -/
theorem interval_candidates_C4 (markers : List Marker)
    (tr : List TranscriptSegment) (td pre post : ℚ) :
    slice_interval markers tr td pre post =
      mergeOverlapping
        ((markers.filter (fun m => m.type = MarkerType.START)).filterMap
          (intervalCandidateSpec
            (markers.filter (fun m => m.type = MarkerType.START))
            (markers.filter (fun m => m.type = MarkerType.END)) td pre post)) := by
  simp only [slice_interval]
  split
  · rename_i hempty
    rw [List.isEmpty_iff] at hempty
    rw [hempty]
    rfl
  · rw [intervalLoop_eq_filterMap]

/-! ## The SRT timecode bug -/

/-- C8 (code bug): at `seconds = 0.9999` the fractional part rounds to 1000
milliseconds, and `_seconds_to_srt_tc` emits the malformed timecode
`00:00:00,1000` — a four-digit millisecond field instead of carrying into the
seconds, so the `mmm ∈ 000..999` well-formedness the claim states fails. -/
theorem srt_timecode_C8_bug :
    secondsToSrtTc 0.9999 = "00:00:00,1000" ∧ "00:00:00,1000".length ≠ 12 := by
  decide

/-! ## The SRT exporter's cue structure -/

theorem durationsSum_nil : durationsSum [] = 0 := rfl

theorem durationsSum_cons (s : Segment) (l : List Segment) :
    durationsSum (s :: l) = (s.«end» - s.start) + durationsSum l := by
  simp [durationsSum]

theorem renderCues_append (xs ys : List (ℚ × ℚ × String)) :
    ∀ c : Nat, renderCues c (xs ++ ys) = renderCues c xs ++ renderCues (c + xs.length) ys := by
  induction xs with
  | nil => intro c; simp [renderCues]
  | cons x t ih =>
    intro c
    rw [List.cons_append, renderCues, renderCues, ih (c + 1), List.cons_append,
      List.length_cons]
    have : c + 1 + t.length = c + (t.length + 1) := by omega
    rw [this]

theorem srtSentenceLoop_eq (kws : List String) (seg : Segment) (off : ℚ) :
    ∀ (ts : List TranscriptSegment) (counter : Nat),
      srtSentenceLoop kws seg off counter ts =
        (renderCues counter (segCuesSpec kws seg off ts),
         counter + (segCuesSpec kws seg off ts).length) := by
  intro ts
  induction ts with
  | nil => intro counter; simp [srtSentenceLoop, segCuesSpec, renderCues]
  | cons t rest ih =>
    intro counter
    rw [srtSentenceLoop]
    simp only [segCuesSpec, List.filterMap_cons] at ih ⊢
    by_cases h1 : t.«end» ≤ seg.start ∨ seg.«end» ≤ t.start
    · rw [if_pos h1, if_pos h1, ih]
    · rw [if_neg h1, if_neg h1]
      by_cases h2 : cleanText kws t.text = ""
      · rw [if_pos h2, if_pos h2, ih]
      · rw [if_neg h2, if_neg h2, ih, renderCues, List.length_cons]
        refine Prod.ext rfl ?_
        simp only []
        omega

theorem srtSegLoop_eq (kws : List String) (tr : List TranscriptSegment) :
    ∀ (l : List Segment) (counter : Nat) (off : ℚ),
      srtSegLoop kws tr counter off l = renderCues counter (threadCues kws tr off l) := by
  intro l
  induction l with
  | nil => intro counter off; rfl
  | cons seg rest ih =>
    intro counter off
    rw [srtSegLoop, srtSentenceLoop_eq]
    dsimp only
    rw [threadCues, renderCues_append, ih]

theorem threadCues_eq_enumTake (kws : List String) (tr : List TranscriptSegment) :
    ∀ (l : List Segment) (off : ℚ),
      threadCues kws tr off l =
        l.enum.flatMap
          (fun p => segCuesSpec kws p.2 (off + durationsSum (l.take p.1)) tr) := by
  intro l
  induction l with
  | nil => intro off; rfl
  | cons s rest ih =>
    intro off
    rw [threadCues, List.enum_cons', List.flatMap_cons, ih, List.flatMap_map]
    simp only [Prod.map_fst, Prod.map_snd, Prod.map_apply, id_eq, List.take_succ_cons,
      List.take_zero, durationsSum_nil, durationsSum_cons, add_zero, add_assoc]

/-- C6 (amended): `export_srt` renders exactly the cue list of `srtCuesSpec`,
numbered sequentially from 1: for each enabled keep segment (sorted by start,
output offset = sum of durations of the previously processed enabled
segments), every overlapping transcript sentence (`sentence.end >
segment.start` and `sentence.start < segment.end`) yields a cue clipped to the
segment boundaries and re-timed by the offset — except that a sentence is
dropped when its filtered text is empty, where the filter removes each
configured keyword case-insensitively and trims after each removal only when
at least one keyword is configured, and otherwise uses the raw sentence text
(dropping it only when it is the empty string). -/
theorem export_srt_cues_C6 (segments : List Segment)
    (transcript : List TranscriptSegment) (filter_keywords : List String) :
    export_srt segments transcript filter_keywords =
      String.intercalate "\n"
        (renderCues 1 (srtCuesSpec segments transcript filter_keywords)) := by
  simp only [export_srt, srtCuesSpec]
  rw [srtSegLoop_eq, threadCues_eq_enumTake]
  simp only [zero_add]

/-- C6 (counterexample): with no filter keywords configured and a sentence
whose text is a single space (so that "removing all configured filter keywords
and trimming" leaves an empty text), `export_srt` still emits a cue for the
sentence — the code trims only when at least one keyword is configured. -/
theorem export_srt_C6_counterexample :
    pyStrip " " = "" ∧
      export_srt [fixtureSeg] [fixtureBlankSentence] [] =
        "1\n00:00:01,000 --> 00:00:02,000\n \n" := by decide

/-! ## Safety of the marker detector -/

theorem roundHalfEven_intCast (n : ℤ) : roundHalfEven (n : ℚ) = n := by
  simp only [roundHalfEven, Int.floor_intCast, sub_self]
  rw [if_pos (by norm_num : (0 : ℚ) < 1/2)]

theorem round3_idem (q : ℚ) : round3 (round3 q) = round3 q := by
  unfold round3
  rw [div_mul_cancel₀ _ (by norm_num : (1000 : ℚ) ≠ 0), roundHalfEven_intCast]

theorem sentenceScan_mem (txt : String) (s e : ℚ) :
    ∀ (kmap : List (String × MarkerType)) (m : Marker),
      sentenceScan txt s e kmap = some m →
      m.confidence = round3 m.confidence ∧ ∃ p ∈ kmap, m.type = p.2 := by
  intro kmap
  induction kmap with
  | nil => intro m h; simp [sentenceScan] at h
  | cons p rest ih =>
    obtain ⟨kw, mt⟩ := p
    intro m h
    rw [sentenceScan] at h
    split at h
    · obtain rfl := Option.some.inj h
      exact ⟨(round3_idem _).symm, (kw, mt), List.mem_cons_self _ _, rfl⟩
    · obtain ⟨h1, p', hp', h2⟩ := ih m h
      exact ⟨h1, p', List.mem_cons_of_mem _ hp', h2⟩

theorem sentencePassLoop_mem (kmap : List (String × MarkerType)) :
    ∀ (ts : List TranscriptSegment) (acc : List Marker),
      (∀ m ∈ acc, m.confidence = round3 m.confidence ∧ ∃ p ∈ kmap, m.type = p.2) →
      ∀ m ∈ sentencePassLoop kmap acc ts,
        m.confidence = round3 m.confidence ∧ ∃ p ∈ kmap, m.type = p.2 := by
  intro ts
  induction ts with
  | nil => intro acc hacc m hm; exact hacc m hm
  | cons seg rest ih =>
    intro acc hacc m hm
    rw [sentencePassLoop] at hm
    rcases hscan : sentenceScan (pyStrip seg.text) seg.start seg.«end» kmap with _ | m'
    · rw [hscan] at hm
      exact ih acc hacc m hm
    · rw [hscan] at hm
      refine ih _ ?_ m hm
      intro x hx
      rcases List.mem_append.mp hx with hx' | hx'
      · exact hacc x hx'
      · simp only [List.mem_singleton] at hx'
        exact hx' ▸ sentenceScan_mem _ _ _ kmap m' hscan

theorem spanWords_isSome (words : List TranscriptWord) :
    ∀ (span i : Nat), i + span ≤ words.length →
      ∃ ws, spanWords words i span = some ws := by
  intro span
  induction span with
  | zero => intro i _; exact ⟨[], rfl⟩
  | succ n ih =>
    intro i hle
    have hi : i < words.length := by omega
    obtain ⟨ws, hws⟩ := ih (i + 1) (by omega)
    refine ⟨words[i] :: ws, ?_⟩
    rw [spanWords, List.getElem?_eq_getElem hi, hws]
    rfl

theorem trySpans_spec (words : List TranscriptWord) (i : Nat) (kw : String)
    (hi : i < words.length) :
    ∀ spans : List Nat, (∀ sp ∈ spans, 1 ≤ sp ∧ i + sp ≤ words.length) →
      ∃ b e sc, trySpans words i kw spans = some (b, e, sc) ∧
        i ≤ e ∧ e < words.length := by
  intro spans
  induction spans with
  | nil => intro _; exact ⟨false, i, 0, rfl, le_refl i, hi⟩
  | cons sp rest ih =>
    intro hsp
    obtain ⟨h1, h2⟩ := hsp sp (List.mem_cons_self _ _)
    obtain ⟨ws, hws⟩ := spanWords_isSome words sp i h2
    rw [trySpans, hws]
    dsimp only
    split
    · exact ⟨true, i + sp - 1, _, rfl, by omega, by omega⟩
    · exact ih fun sp' hsp' => hsp sp' (List.mem_cons_of_mem _ hsp')

theorem checkWordSequence_spec (words : List TranscriptWord) (i : Nat) (kw : String)
    (hi : i < words.length) :
    ∃ b e sc, checkWordSequence words i kw = some (b, e, sc) ∧
      i ≤ e ∧ e < words.length := by
  unfold checkWordSequence
  split
  · rw [List.getElem?_eq_getElem hi]
    exact ⟨_, i, _, rfl, le_refl i, hi⟩
  · refine trySpans_spec words i kw hi _ ?_
    intro sp hsp
    rw [List.mem_range'] at hsp
    have hmin : min 6 (words.length - i + 1) ≤ words.length - i + 1 :=
      Nat.min_le_right _ _
    omega

theorem findKeywordMatch_spec (words : List TranscriptWord) (i : Nat)
    (hi : i < words.length) :
    ∀ kmap : List (String × MarkerType),
      ∃ r, findKeywordMatch words i kmap = some r ∧
        ∀ mt e sc, r = some (mt, e, sc) →
          i ≤ e ∧ e < words.length ∧ ∃ p ∈ kmap, mt = p.2 := by
  intro kmap
  induction kmap with
  | nil => exact ⟨none, rfl, by simp⟩
  | cons p rest ih =>
    obtain ⟨kw, mt0⟩ := p
    obtain ⟨b, e, sc, hc, hie, hel⟩ := checkWordSequence_spec words i kw hi
    rw [findKeywordMatch, hc]
    dsimp only
    cases b with
    | true =>
      rw [if_pos rfl]
      refine ⟨some (mt0, e, sc), rfl, ?_⟩
      intro mt' e' sc' heq
      simp only [Option.some.injEq, Prod.mk.injEq] at heq
      obtain ⟨rfl, rfl, rfl⟩ := heq
      exact ⟨hie, hel, (kw, mt0), List.mem_cons_self _ _, rfl⟩
    | false =>
      rw [if_neg (by simp)]
      obtain ⟨r, hr, hrp⟩ := ih
      refine ⟨r, hr, ?_⟩
      intro mt' e' sc' heq
      obtain ⟨h1, h2, p', hp', h3⟩ := hrp mt' e' sc' heq
      exact ⟨h1, h2, p', List.mem_cons_of_mem _ hp', h3⟩

theorem wordPassLoop_spec (kmap : List (String × MarkerType))
    (words : List TranscriptWord) :
    ∀ (fuel i : Nat) (markers : List Marker),
      words.length ≤ fuel + i →
      (∀ m ∈ markers, m.confidence = round3 m.confidence ∧ ∃ p ∈ kmap, m.type = p.2) →
      ∃ ms, wordPassLoop kmap words fuel i markers = some ms ∧
        ∀ m ∈ ms, m.confidence = round3 m.confidence ∧ ∃ p ∈ kmap, m.type = p.2 := by
  intro fuel
  induction fuel with
  | zero =>
    intro i markers hle hP
    rw [wordPassLoop, if_pos (by omega)]
    exact ⟨markers, rfl, hP⟩
  | succ fuel ih =>
    intro i markers hle hP
    rw [wordPassLoop]
    by_cases hi : words.length ≤ i
    · rw [if_pos hi]
      exact ⟨markers, rfl, hP⟩
    · rw [if_neg hi]
      have hi' : i < words.length := by omega
      rw [List.getElem?_eq_getElem hi']
      obtain ⟨r, hr, hrp⟩ := findKeywordMatch_spec words i hi' kmap
      rw [hr]
      rcases r with _ | ⟨mt, e, sc⟩
      · exact ih (i + 1) markers (by omega) hP
      · obtain ⟨hie, hel, p', hp', hmt⟩ := hrp mt e sc rfl
        dsimp only
        rw [List.getElem?_eq_getElem hel]
        obtain ⟨ws, hws⟩ := spanWords_isSome words (e + 1 - i) i (by omega)
        rw [hws]
        dsimp only
        refine ih (e + 1) _ (by omega) ?_
        intro m hm
        split at hm
        · exact hP m hm
        · rcases List.mem_append.mp hm with hm' | hm'
          · exact hP m hm'
          · simp only [List.mem_singleton] at hm'
            subst hm'
            exact ⟨(round3_idem _).symm, p', hp', hmt⟩

theorem wordPassAll_spec (kmap : List (String × MarkerType)) :
    ∀ (ts : List TranscriptSegment) (markers : List Marker),
      (∀ m ∈ markers, m.confidence = round3 m.confidence ∧ ∃ p ∈ kmap, m.type = p.2) →
      ∃ ms, wordPassAll kmap markers ts = some ms ∧
        ∀ m ∈ ms, m.confidence = round3 m.confidence ∧ ∃ p ∈ kmap, m.type = p.2 := by
  intro ts
  induction ts with
  | nil => intro markers hP; exact ⟨markers, rfl, hP⟩
  | cons seg rest ih =>
    intro markers hP
    rw [wordPassAll]
    split
    · exact ih markers hP
    · obtain ⟨ms', hms', hP'⟩ :=
        wordPassLoop_spec kmap seg.words seg.words.length 0 markers (by omega) hP
      rw [hms']
      exact ih ms' hP'

theorem keywordMap_snd (ng ok st en : List String) (p : String × MarkerType)
    (hp : p ∈ keywordMap ng ok st en) :
    (p.2 = .NG → p.1 ∈ ng) ∧ (p.2 = .OK → p.1 ∈ ok) ∧
      (p.2 = .START → p.1 ∈ st) ∧ (p.2 = .END → p.1 ∈ en) := by
  unfold keywordMap at hp
  simp only [List.mem_append, List.mem_map] at hp
  rcases hp with ((⟨kw, hkw, rfl⟩ | ⟨kw, hkw, rfl⟩) | ⟨kw, hkw, rfl⟩) | ⟨kw, hkw, rfl⟩ <;>
    exact ⟨fun h => by simp_all, fun h => by simp_all, fun h => by simp_all,
      fun h => by simp_all⟩

/-- C7: for every transcript and keyword configuration, `detect_markers`
terminates without any exception (in particular none of the word-window reads
goes out of bounds and the word-pass index always advances), returning a
marker list sorted ascending by start with each confidence rounded to 3
decimals; an empty transcript yields no markers, and an empty keyword category
yields no markers of that type. -/
theorem detect_markers_safe_C7 (transcript : List TranscriptSegment)
    (ng ok st en : List String) :
    ∃ ms, detect_markers transcript ng ok st en = some ms ∧
      ms.Pairwise markerLE ∧
      (∀ m ∈ ms, m.confidence = round3 m.confidence) ∧
      (transcript = [] → ms = []) ∧
      (ng = [] → ∀ m ∈ ms, m.type ≠ .NG) ∧
      (ok = [] → ∀ m ∈ ms, m.type ≠ .OK) ∧
      (st = [] → ∀ m ∈ ms, m.type ≠ .START) ∧
      (en = [] → ∀ m ∈ ms, m.type ≠ .END) := by
  obtain ⟨ms0, hms0, hP⟩ :=
    wordPassAll_spec (keywordMap ng ok st en) transcript
      (sentencePass (keywordMap ng ok st en) transcript)
      (sentencePassLoop_mem _ transcript [] (by intro m hm; simp at hm))
  have hmem : ∀ m ∈ ms0.insertionSort markerLE, m ∈ ms0 := by
    intro m hm
    exact (ms0.perm_insertionSort markerLE).subset hm
  have htype : ∀ (t : MarkerType) (l : List String),
      (∀ p ∈ keywordMap ng ok st en, p.2 = t → p.1 ∈ l) → l = [] →
      ∀ m ∈ ms0.insertionSort markerLE, m.type ≠ t := by
    intro t l hsel hl m hm ht
    obtain ⟨_, p, hp, hmt⟩ := hP m (hmem m hm)
    have hpl := hsel p hp (hmt.symm.trans ht)
    rw [hl] at hpl
    simp at hpl
  refine ⟨ms0.insertionSort markerLE, ?_, ?_, ?_, ?_, ?_, ?_, ?_, ?_⟩
  · simp only [detect_markers]
    rw [hms0]
  · exact List.sorted_insertionSort markerLE ms0
  · intro m hm
    exact (hP m (hmem m hm)).1
  · intro ht
    subst ht
    have : ms0 = [] := by
      have h0 : wordPassAll (keywordMap ng ok st en)
          (sentencePass (keywordMap ng ok st en) []) [] =
          some (sentencePass (keywordMap ng ok st en) []) := rfl
      rw [h0] at hms0
      exact (Option.some.inj hms0).symm
    rw [this]
    rfl
  · exact fun h => htype .NG ng (fun p hp h2 => (keywordMap_snd ng ok st en p hp).1 h2) h
  · exact fun h => htype .OK ok (fun p hp h2 => (keywordMap_snd ng ok st en p hp).2.1 h2) h
  · exact fun h =>
      htype .START st (fun p hp h2 => (keywordMap_snd ng ok st en p hp).2.2.1 h2) h
  · exact fun h =>
      htype .END en (fun p hp h2 => (keywordMap_snd ng ok st en p hp).2.2.2 h2) h

theorem detect_markers_safe_C7_witness :
    detect_markers [] ["NG"] ["OK"] [] [] = some [] := by
  obtain ⟨ms, hms, _, _, hemp, _⟩ := detect_markers_safe_C7 [] ["NG"] ["OK"] [] []
  rw [hms, hemp rfl]

end ClipFlow
